import Mathlib

/-!
Verification development for the `graphfusion` repository.

The repository ships only its packaging script (`setup.py`); the
specification reconstructs the Dynamic Memory Module, the Knowledge
Graph Store and the Graph-Conditioned Retrieval Engine from the
package's stated purpose.  Accordingly, the engine components below are
modelled from the spec (each such definition says so in its doc
comment), while the packaging logic is embedded directly from
`src/setup.py`.

Vectors are modelled over `ℚ` (the spec's floating-point vectors, taken
at exact arithmetic); machine floats play no role in any claim checked
here beyond exact linear blends.
-/

namespace GraphFusion

/-! ## Dynamic Memory Module (spec §4.3, §3) -/

/-- Modelled from the spec: a `MemorySlot` is "a fixed-dimension vector, a
usage counter (monotonic, reset on eviction), and a weak back-reference to
the node it currently represents".  `born` records the store clock at the
moment the slot was occupied, giving the "oldest-written slot index"
eviction tie-break a concrete meaning. -/
structure SlotData where
  nodeId : String
  vec : List ℚ
  usage : ℕ
  born : ℕ
deriving DecidableEq, Repr

/-- Modelled from the spec: a `MemoryStore` is an "ordered collection of
exactly `capacity` slots, capacity fixed at construction"; a slot may be
free (`none`).  `clock` is a monotone write-order stamp. -/
structure MemoryStore where
  dim : ℕ
  slots : List (Option SlotData)
  clock : ℕ
deriving DecidableEq, Repr

/-- The store's capacity: the number of slots (free or occupied). -/
def MemoryStore.capacity (m : MemoryStore) : ℕ := m.slots.length

/-- The number of occupied slots. -/
def MemoryStore.occupiedCount (m : MemoryStore) : ℕ :=
  m.slots.countP Option.isSome

/-- Modelled from the spec: a freshly constructed store of the given
dimension and capacity — all `capacity` slots free. -/
def mkStore (dim cap : ℕ) : MemoryStore :=
  ⟨dim, List.replicate cap none, 0⟩

/-- First slot index occupied by the given node id, with its contents.
The spec's invariant "at most one slot references a given node" makes the
first match canonical. -/
def findSlot? : List (Option SlotData) → String → Option (ℕ × SlotData)
  | [], _ => none
  | none :: rest, id => (findSlot? rest id).map fun p => (p.1 + 1, p.2)
  | some s :: rest, id =>
    if s.nodeId = id then some (0, s)
    else (findSlot? rest id).map fun p => (p.1 + 1, p.2)

/-- Index of the first free slot, if any. -/
def findFree? : List (Option SlotData) → Option ℕ
  | [] => none
  | none :: _ => some 0
  | some _ :: rest => (findFree? rest).map (· + 1)

/-- Modelled from the spec: the eviction order — `a` is evicted in
preference to `b` when `a` has the strictly lower usage counter, or equal
usage and the older write stamp. -/
def evictBefore (a b : SlotData) : Bool :=
  a.usage < b.usage ∨ (a.usage = b.usage ∧ a.born < b.born)

/-- Modelled from the spec: pick the eviction victim — "the slot with the
lowest usage counter (ties broken by oldest-written slot index)".  Returns
the victim's index and contents; `none` iff no slot is occupied.  On a
full tie the lowest index wins. -/
def evictPick : List (Option SlotData) → Option (ℕ × SlotData)
  | [] => none
  | none :: rest => (evictPick rest).map fun p => (p.1 + 1, p.2)
  | some s :: rest =>
    match evictPick rest with
    | none => some (0, s)
    | some (j, t) => if evictBefore t s then some (j + 1, t) else some (0, s)

/-- Modelled from the spec: the gated blend
`new = (1 - write_strength) * old + write_strength * vector`. -/
def blend (ws : ℚ) (old new : List ℚ) : List ℚ :=
  List.zipWith (fun o n => (1 - ws) * o + ws * n) old new

/-- Errors of the memory module (spec §7 taxonomy, restricted to the
memory operations). -/
inductive MemError where
  | dimensionError
  | rangeError
deriving DecidableEq, Repr

/-- Modelled from the spec: `Write(node_id, vector, write_strength)`.
Validation (dimension, then range) happens before any mutation.  If a
slot already references `node_id` its vector is blended and its usage
counter incremented; otherwise a free slot is occupied with usage 1;
otherwise the eviction victim is overwritten unconditionally.  A store of
capacity 0 has no slot to occupy and is returned unchanged. -/
def write (m : MemoryStore) (id : String) (v : List ℚ) (ws : ℚ) :
    Except MemError MemoryStore :=
  if v.length ≠ m.dim then .error .dimensionError
  else if ws < 0 ∨ 1 < ws then .error .rangeError
  else .ok <|
    match findSlot? m.slots id with
    | some (i, s) =>
      { m with
        slots := m.slots.set i (some { s with vec := blend ws s.vec v, usage := s.usage + 1 })
        clock := m.clock + 1 }
    | none =>
      match findFree? m.slots with
      | some i =>
        { m with
          slots := m.slots.set i (some ⟨id, v, 1, m.clock⟩)
          clock := m.clock + 1 }
      | none =>
        match evictPick m.slots with
        | some (i, _) =>
          { m with
            slots := m.slots.set i (some ⟨id, v, 1, m.clock⟩)
            clock := m.clock + 1 }
        | none => m

/-- One `Write` call of a sequence: a failing call leaves the store
unchanged (spec §7: errors are local to the operation). -/
def writeStep (m : MemoryStore) (op : String × List ℚ × ℚ) : MemoryStore :=
  match write m op.1 op.2.1 op.2.2 with
  | .ok m' => m'
  | .error _ => m

/-- A finite sequence of `Write` calls. -/
def writeMany (m : MemoryStore) (ops : List (String × List ℚ × ℚ)) : MemoryStore :=
  ops.foldl writeStep m

/-- The node ids currently referenced by occupied slots, in slot order. -/
def storedIds (slots : List (Option SlotData)) : List String :=
  slots.filterMap fun o => o.map SlotData.nodeId

/-! ## Read (spec §4.3) -/

/-- Modelled from the spec: the similarity score between the query vector
and a slot's vector — the dot product (the spec allows "cosine or
dot-product, configurable"; the dot product is the exact-arithmetic
representative). -/
def score (q v : List ℚ) : ℚ :=
  (List.zipWith (· * ·) q v).sum

/-- The occupied slots paired with their indices, indices starting at
`base`. -/
def occFrom (base : ℕ) : List (Option SlotData) → List (ℕ × SlotData)
  | [] => []
  | none :: rest => occFrom (base + 1) rest
  | some s :: rest => (base, s) :: occFrom (base + 1) rest

/-- Candidate `a` ranks strictly before candidate `b` for a read of query
`q`: higher score, or equal score and lower slot index. -/
def rankBefore (q : List ℚ) (a b : ℕ × SlotData) : Prop :=
  score q b.2.vec < score q a.2.vec ∨
    (score q a.2.vec = score q b.2.vec ∧ a.1 < b.1)

instance (q : List ℚ) (a b : ℕ × SlotData) : Decidable (rankBefore q a b) := by
  unfold rankBefore; infer_instance

/-- `a` ranks no worse than `b`: higher score, or equal score and index no
larger. -/
def rankLE (q : List ℚ) (a b : ℕ × SlotData) : Prop :=
  score q b.2.vec < score q a.2.vec ∨
    (score q a.2.vec = score q b.2.vec ∧ a.1 ≤ b.1)

instance (q : List ℚ) (a b : ℕ × SlotData) : Decidable (rankLE q a b) := by
  unfold rankLE; infer_instance

/-- Extract the best-ranked candidate (score descending, ties by lowest
index) together with the remaining candidates. -/
def pickBest (q : List ℚ) : List (ℕ × SlotData) → Option ((ℕ × SlotData) × List (ℕ × SlotData))
  | [] => none
  | x :: rest =>
    match pickBest q rest with
    | none => some (x, [])
    | some (b, others) =>
      if rankBefore q b x then some (b, x :: others) else some (x, rest)

/-- The `top_k` candidates by rank, best first, selected without
replacement. -/
def topK (q : List ℚ) : ℕ → List (ℕ × SlotData) → List (ℕ × SlotData)
  | 0, _ => []
  | k + 1, l =>
    match pickBest q l with
    | none => []
    | some (b, rest) => b :: topK q k rest

/-- Increment the usage counter of every slot whose index (counting from
`base`) is listed in `idxs`; all other slots are untouched. -/
def bumpFrom (base : ℕ) (idxs : List ℕ) : List (Option SlotData) → List (Option SlotData)
  | [] => []
  | o :: rest =>
    (if base ∈ idxs then o.map fun s => { s with usage := s.usage + 1 } else o) ::
      bumpFrom (base + 1) idxs rest

/-- Modelled from the spec: `Read(query_vector, top_k)` — score every
occupied slot against the query, return the `top_k` slots by score
descending (ties by lowest slot index), and increment each returned
slot's usage counter by 1.  Read never frees or evicts a slot.  Fails
with `DimensionError` on a width mismatch, before any mutation. -/
def read (m : MemoryStore) (q : List ℚ) (k : ℕ) :
    Except MemError (List (ℕ × SlotData) × MemoryStore) :=
  if q.length ≠ m.dim then .error .dimensionError
  else
    let res := topK q k (occFrom 0 m.slots)
    .ok (res, { m with slots := bumpFrom 0 (res.map Prod.fst) m.slots })

/-! ## Knowledge Graph Store (spec §4.1, §3) -/

/-- Attribute mappings of nodes and edges (string keys to string
values; the attribute value type is irrelevant to every claim). -/
abbrev Attrs := List (String × String)

/-- Errors of the graph store (spec §7 taxonomy, restricted to the graph
operations). -/
inductive GraphError where
  | notFoundError
  | conflictError
deriving DecidableEq, Repr

/-- Modelled from the spec: the Knowledge Graph Store "holds typed nodes
(entities) and typed, directed edges (relations) with attributes".  Nodes
are `(id, type, attrs)` records; edges are `(src, relation, dst, attrs)`
records. -/
structure Graph where
  nodes : List (String × String × Attrs)
  edges : List (String × String × String × Attrs)
deriving DecidableEq, Repr

/-- The empty graph. -/
def Graph.empty : Graph := ⟨[], []⟩

/-- Look up a node by id: its type tag and attributes. -/
def lookupNode (g : Graph) (id : String) : Option (String × Attrs) :=
  (g.nodes.find? fun n => n.1 = id).map Prod.snd

/-- Whether a node with the given id is present. -/
def hasNode (g : Graph) (id : String) : Bool :=
  g.nodes.any fun n => n.1 = id

/-- Modelled from the spec: `add_node(id, type, attrs)` — "inserts or
updates a node; idempotent on identical attrs; fails with `ConflictError`
if `id` exists with a different `type`". -/
def add_node (g : Graph) (id ty : String) (attrs : Attrs) :
    Except GraphError Graph :=
  match lookupNode g id with
  | some (ty0, _) =>
    if ty0 = ty then
      .ok { g with nodes := g.nodes.map fun n => if n.1 = id then (id, ty, attrs) else n }
    else .error .conflictError
  | none => .ok { g with nodes := g.nodes ++ [(id, ty, attrs)] }

/-- Modelled from the spec: `add_edge(src, relation, dst, attrs)` —
"fails with `NotFoundError` if either endpoint is absent; idempotent
merge on duplicate triples (attrs overwritten)". -/
def add_edge (g : Graph) (src rel dst : String) (attrs : Attrs) :
    Except GraphError Graph :=
  if ¬ (hasNode g src ∧ hasNode g dst) then .error .notFoundError
  else if g.edges.any fun e => e.1 = src ∧ e.2.1 = rel ∧ e.2.2.1 = dst then
    .ok { g with
          edges := g.edges.map fun e =>
            if e.1 = src ∧ e.2.1 = rel ∧ e.2.2.1 = dst then (src, rel, dst, attrs) else e }
  else .ok { g with edges := g.edges ++ [(src, rel, dst, attrs)] }

/-- Modelled from the spec: `neighbors(id)` in the default outgoing
direction — the `(neighbor id, relation, edge attrs)` triples of edges
leaving `id`, in insertion order. -/
def neighbors (g : Graph) (id : String) : List (String × String × Attrs) :=
  g.edges.filterMap fun e =>
    if e.1 = id then some (e.2.2.1, e.2.1, e.2.2.2) else none

/-- The outgoing neighbor ids of a node (the engine's expansion step). -/
def neighborIds (g : Graph) (id : String) : List String :=
  (neighbors g id).map Prod.fst

/-! ## Embedding Table (spec §4.2) -/

/-- Errors of the Embedding Table (spec §7 taxonomy, restricted to the
embedding operations: `get` can fail with `NotFoundError`, `set` with
`DimensionError`). -/
inductive EmbedError where
  | notFoundError
  | dimensionError
deriving DecidableEq, Repr

/-- Modelled from the spec: the Embedding Table "maps entity/relation
identifiers to dense vector representations" of a fixed
dimensionality. -/
structure EmbeddingTable where
  dim : ℕ
  entries : List (String × List ℚ)
deriving DecidableEq, Repr

/-- Modelled from the spec: `get(id)` — "returns current vector or fails
with `NotFoundError`".  A pure read: the table is never mutated. -/
def embedGet (t : EmbeddingTable) (id : String) : Except EmbedError (List ℚ) :=
  match (t.entries.find? fun e => e.1 = id).map Prod.snd with
  | some v => .ok v
  | none => .error .notFoundError

/-- Modelled from the spec: `set(id, vector)` — "replaces the vector;
dimension must match the table's fixed dimensionality or fails with
`DimensionError`"; the whole vector is replaced, never partially
mutated, and the dimension check precedes the write. -/
def embedSet (t : EmbeddingTable) (id : String) (v : List ℚ) :
    Except EmbedError EmbeddingTable :=
  if v.length ≠ t.dim then .error .dimensionError
  else if t.entries.any fun e => e.1 = id then
    .ok { t with entries := t.entries.map fun e => if e.1 = id then (id, v) else e }
  else .ok { t with entries := t.entries ++ [(id, v)] }

/-! ## Graph-Conditioned Retrieval Engine traversal (spec §4.4) -/

/-- The phases of the per-query state machine (spec §4.4); `EXPAND` and
`SCORE` are taken together as one expansion step, since scoring neither
moves the frontier nor touches the visited set. -/
inductive Phase where
  | expand
  | done
deriving DecidableEq, Repr

/-- Modelled from the spec: the per-query traversal state — frontier,
visited set, hop counter — plus the log of nodes expanded so far (the
nodes on which `neighbors` was called), which the claims quantify over. -/
structure QState where
  phase : Phase
  frontier : List String
  visited : List String
  hops : ℕ
  expandedLog : List String
deriving DecidableEq, Repr

/-- Modelled from the spec: `INIT` — "seed frontier = {query entity},
hop counter = 0, visited set = {}". -/
def initQState (seed : String) : QState :=
  ⟨.expand, [seed], [], 0, []⟩

/-- Modelled from the spec: one step of the query state machine.
`EXPAND`: each frontier node's neighbors are fetched; candidates not in
the (updated) visited set form the next frontier; the visited set gains
the expanded frontier.  The machine transitions to `EXPAND` again only
while the hop counter is below `max_hops` and the frontier is non-empty,
else to `DONE`; `DONE` is absorbing. -/
def qStep (g : Graph) (maxHops : ℕ) (s : QState) : QState :=
  match s.phase with
  | .done => s
  | .expand =>
    if s.frontier = [] ∨ maxHops ≤ s.hops then { s with phase := .done }
    else
      { phase := .expand
        frontier := ((s.frontier.flatMap fun n => neighborIds g n).filter
          fun c => ¬ c ∈ s.visited ++ s.frontier).dedup
        visited := s.visited ++ s.frontier
        hops := s.hops + 1
        expandedLog := s.expandedLog ++ s.frontier }

/-! ## Packaging script (`src/setup.py`) -/

/-- Result of opening `README.md` in the working directory: the file may
be absent, present but not decodable as UTF-8, or readable with the given
contents. -/
inductive FileResult where
  | absent
  | notUtf8
  | content (s : String)
deriving DecidableEq, Repr

/-- The errors the script can raise before reaching `setup()`:
`open` raises `FileNotFoundError` on a missing file, `fh.read()` raises
`UnicodeDecodeError` on bytes that are not valid UTF-8. -/
inductive SetupScriptError where
  | fileNotFoundError
  | unicodeDecodeError
deriving DecidableEq, Repr

/-- The keyword arguments `src/setup.py` passes to `setuptools.setup`. -/
structure SetupArgs where
  name : String
  version : String
  description : String
  longDescription : String
  longDescriptionContentType : String
  author : String
  authorEmail : String
  url : String
  packagesWhere : String
  packageDir : List (String × String)
  installRequires : List String
  classifiers : List String
  pythonRequires : String
deriving DecidableEq, Repr

/-- The literal argument record of the `setup(...)` call in
`src/setup.py`, as a function of the README contents; `packagesWhere`
and `packageDir` record that `find_packages(where="src")` and
`package_dir={"": "src"}` restrict package discovery to the `src`
directory. -/
def setupArgs (readme : String) : SetupArgs :=
  { name := "graphfusionai"
    version := "0.1.4"
    description := "A library for integrating dynamic neural memory with knowledge graphs"
    longDescription := readme
    longDescriptionContentType := "text/markdown"
    author := "Kiplangat Korir"
    authorEmail := "Korir@GraphFusion.onmicrosoft.com"
    url := "https://github.com/yourusername/graphfusion"
    packagesWhere := "src"
    packageDir := [("", "src")]
    installRequires := ["torch", "transformers", "networkx", "scikit-learn", "numpy",
      "pandas", "matplotlib", "tqdm", "flask", "pytest"]
    classifiers := ["Programming Language :: Python :: 3",
      "Operating System :: OS Independent"]
    pythonRequires := ">=3.6" }

/-- The top-level control flow of `src/setup.py`: open and read
`README.md` (raising on absence or on a UTF-8 decode failure), then call
`setup(...)` with the fixed argument record.  The returned `SetupArgs`
stands for the arguments with which `setup()` is invoked. -/
def runSetup (readme : FileResult) : Except SetupScriptError SetupArgs :=
  match readme with
  | .absent => .error .fileNotFoundError
  | .notUtf8 => .error .unicodeDecodeError
  | .content s => .ok (setupArgs s)

/-! Verification-side predicates and state-passing wrappers. -/

/-- A `Write` call that passes validation on a store of width `dim`:
matching vector width and `write_strength ∈ [0,1]`. -/
def validOp (dim : ℕ) (op : String × List ℚ × ℚ) : Prop :=
  op.2.1.length = dim ∧ 0 ≤ op.2.2 ∧ op.2.2 ≤ 1

instance (dim : ℕ) (op : String × List ℚ × ℚ) : Decidable (validOp dim op) := by
  unfold validOp; infer_instance

/-- The store invariant maintained by `Write` sequences: the occupied
count equals capacity clamped by the number of distinct node ids written
so far (`seen`); every slot's node id was written; and while the store is
not full, every written id still occupies a slot (eviction has not yet
happened). -/
def StoreInv (m : MemoryStore) (seen : List String) : Prop :=
  m.occupiedCount = min m.capacity seen.toFinset.card ∧
  (∀ id, (findSlot? m.slots id).isSome → id ∈ seen) ∧
  (m.occupiedCount < m.capacity → ∀ id ∈ seen, (findSlot? m.slots id).isSome)

/-- `Write` as a state transformer reporting its error separately: the
result state and, when the call failed, the error.  A failing call leaves
the store untouched. -/
def writeRun (m : MemoryStore) (id : String) (v : List ℚ) (ws : ℚ) :
    MemoryStore × Option MemError :=
  match write m id v ws with
  | .ok m' => (m', none)
  | .error e => (m, some e)

/-- `Read` as a state transformer reporting its error separately. -/
def readRun (m : MemoryStore) (q : List ℚ) (k : ℕ) :
    MemoryStore × Option MemError :=
  match read m q k with
  | .ok (_, m') => (m', none)
  | .error e => (m, some e)

/-- `add_node` as a state transformer reporting its error separately. -/
def addNodeRun (g : Graph) (id ty : String) (attrs : Attrs) :
    Graph × Option GraphError :=
  match add_node g id ty attrs with
  | .ok g' => (g', none)
  | .error e => (g, some e)

/-- `add_edge` as a state transformer reporting its error separately. -/
def addEdgeRun (g : Graph) (src rel dst : String) (attrs : Attrs) :
    Graph × Option GraphError :=
  match add_edge g src rel dst attrs with
  | .ok g' => (g', none)
  | .error e => (g, some e)

/-- `get` as a state transformer reporting its error separately: a read
of the Embedding Table, failing or not, returns the table unchanged. -/
def embedGetRun (t : EmbeddingTable) (id : String) :
    EmbeddingTable × Option EmbedError :=
  match embedGet t id with
  | .ok _ => (t, none)
  | .error e => (t, some e)

/-- `set` as a state transformer reporting its error separately. -/
def embedSetRun (t : EmbeddingTable) (id : String) (v : List ℚ) :
    EmbeddingTable × Option EmbedError :=
  match embedSet t id v with
  | .ok t' => (t', none)
  | .error e => (t, some e)

/-! Helper lemmas on lists and on the slot-array primitives. -/

theorem get?_set_self {α : Type} (l : List α) (i : ℕ) (a : α) (h : i < l.length) :
    (l.set i a).get? i = some a := by
  rw [List.get?_eq_getElem?, List.getElem?_set_self']
  simp [List.getElem?_eq_getElem h]

theorem get?_set_ne {α : Type} (l : List α) (i j : ℕ) (a : α) (h : i ≠ j) :
    (l.set i a).get? j = l.get? j := by
  rw [List.get?_eq_getElem?, List.getElem?_set_ne h, List.get?_eq_getElem?]

theorem countP_isSome_set_none (slots : List (Option SlotData)) (i : ℕ) (d : SlotData)
    (h : slots.get? i = some none) :
    (slots.set i (some d)).countP Option.isSome = slots.countP Option.isSome + 1 := by
  induction slots generalizing i with
  | nil => simp at h
  | cons o rest ih =>
    cases i with
    | zero =>
      simp only [List.get?] at h
      injection h with h
      subst h
      simp [List.countP_cons]
    | succ n =>
      simp only [List.get?] at h
      simp only [List.set, List.countP_cons, ih n h]
      omega

theorem countP_isSome_set_some (slots : List (Option SlotData)) (i : ℕ) (s d : SlotData)
    (h : slots.get? i = some (some s)) :
    (slots.set i (some d)).countP Option.isSome = slots.countP Option.isSome := by
  induction slots generalizing i with
  | nil => simp at h
  | cons o rest ih =>
    cases i with
    | zero =>
      simp only [List.get?] at h
      injection h with h
      subst h
      simp [List.countP_cons]
    | succ n =>
      simp only [List.get?] at h
      simp only [List.set, List.countP_cons, ih n h]

theorem countP_lt_of_get?_none (slots : List (Option SlotData)) (i : ℕ)
    (h : slots.get? i = some none) :
    slots.countP Option.isSome < slots.length := by
  rcases Nat.lt_or_ge (slots.countP Option.isSome) slots.length with hlt | hge
  · exact hlt
  · exfalso
    have hle := List.countP_le_length (l := slots) (p := Option.isSome)
    have heq : slots.countP Option.isSome = slots.length := le_antisymm hle hge
    have hall := List.countP_eq_length.mp heq
    have hmem : (none : Option SlotData) ∈ slots := List.get?_mem h
    simpa using hall none hmem

theorem findSlot?_some (slots : List (Option SlotData)) (id : String) (i : ℕ) (s : SlotData)
    (h : findSlot? slots id = some (i, s)) :
    slots.get? i = some (some s) ∧ s.nodeId = id := by
  induction slots generalizing i with
  | nil => simp [findSlot?] at h
  | cons o rest ih =>
    cases o with
    | none =>
      simp only [findSlot?, Option.map_eq_some'] at h
      obtain ⟨⟨j, t⟩, hj, he⟩ := h
      have hi : j + 1 = i := congrArg Prod.fst he
      have hs : t = s := congrArg Prod.snd he
      subst hi; subst hs
      exact ih j hj
    | some t =>
      by_cases hid : t.nodeId = id
      · simp only [findSlot?, hid, if_pos rfl] at h
        injection h with h
        have hi : (0 : ℕ) = i := congrArg Prod.fst h
        have hs : t = s := congrArg Prod.snd h
        subst hi; subst hs
        exact ⟨rfl, hid⟩
      · simp only [findSlot?, if_neg hid, Option.map_eq_some'] at h
        obtain ⟨⟨j, u⟩, hj, he⟩ := h
        have hi : j + 1 = i := congrArg Prod.fst he
        have hs : u = s := congrArg Prod.snd he
        subst hi; subst hs
        exact ih j hj

theorem findSlot?_none (slots : List (Option SlotData)) (id : String)
    (h : findSlot? slots id = none) :
    ∀ j t, slots.get? j = some (some t) → t.nodeId ≠ id := by
  induction slots with
  | nil => intro j t hj; simp at hj
  | cons o rest ih =>
    intro j t hj
    cases o with
    | none =>
      simp only [findSlot?, Option.map_eq_none'] at h
      cases j with
      | zero => simp at hj
      | succ n => exact ih h n t hj
    | some u =>
      by_cases hid : u.nodeId = id
      · simp [findSlot?, hid] at h
      · simp only [findSlot?, if_neg hid, Option.map_eq_none'] at h
        cases j with
        | zero =>
          simp only [List.get?] at hj
          injection hj with hj
          injection hj with hj
          subst hj
          exact hid
        | succ n => exact ih h n t hj

theorem findSlot?_isSome_of_get? (slots : List (Option SlotData)) (id : String) (j : ℕ)
    (t : SlotData) (hget : slots.get? j = some (some t)) (hid : t.nodeId = id) :
    (findSlot? slots id).isSome := by
  cases hfs : findSlot? slots id with
  | some p => simp
  | none => exact absurd hid (findSlot?_none slots id hfs j t hget)

theorem findFree?_some (slots : List (Option SlotData)) (i : ℕ)
    (h : findFree? slots = some i) :
    slots.get? i = some none := by
  induction slots generalizing i with
  | nil => simp [findFree?] at h
  | cons o rest ih =>
    cases o with
    | none =>
      simp only [findFree?] at h
      injection h with h
      subst h
      rfl
    | some s =>
      simp only [findFree?, Option.map_eq_some'] at h
      obtain ⟨j, hj, he⟩ := h
      subst he
      exact ih j hj

theorem findFree?_none (slots : List (Option SlotData))
    (h : findFree? slots = none) :
    ∀ o ∈ slots, o.isSome := by
  induction slots with
  | nil => intro o ho; simp at ho
  | cons x rest ih =>
    intro o ho
    cases x with
    | none => simp [findFree?] at h
    | some s =>
      simp only [findFree?, Option.map_eq_none'] at h
      rcases List.mem_cons.mp ho with rfl | hmem
      · rfl
      · exact ih h o hmem

theorem evictPick_get (slots : List (Option SlotData)) (i : ℕ) (s : SlotData)
    (h : evictPick slots = some (i, s)) :
    slots.get? i = some (some s) := by
  induction slots generalizing i s with
  | nil => simp [evictPick] at h
  | cons o rest ih =>
    cases o with
    | none =>
      simp only [evictPick, Option.map_eq_some'] at h
      obtain ⟨⟨j, t⟩, hj, he⟩ := h
      have hi : j + 1 = i := congrArg Prod.fst he
      have hs : t = s := congrArg Prod.snd he
      subst hi; subst hs
      exact ih j t hj
    | some u =>
      cases hrest : evictPick rest with
      | none =>
        simp only [evictPick, hrest] at h
        injection h with h
        have hi : (0 : ℕ) = i := congrArg Prod.fst h
        have hs : u = s := congrArg Prod.snd h
        subst hi; subst hs
        rfl
      | some p =>
        obtain ⟨j, t⟩ := p
        simp only [evictPick, hrest] at h
        by_cases hb : evictBefore t u
        · rw [if_pos hb] at h
          injection h with h
          have hi : j + 1 = i := congrArg Prod.fst h
          have hs : t = s := congrArg Prod.snd h
          subst hi; subst hs
          exact ih j t hrest
        · rw [if_neg hb] at h
          injection h with h
          have hi : (0 : ℕ) = i := congrArg Prod.fst h
          have hs : u = s := congrArg Prod.snd h
          subst hi; subst hs
          rfl

theorem evictPick_none (slots : List (Option SlotData))
    (h : evictPick slots = none) :
    ∀ o ∈ slots, o = none := by
  induction slots with
  | nil => intro o ho; simp at ho
  | cons x rest ih =>
    intro o ho
    cases x with
    | none =>
      simp only [evictPick, Option.map_eq_none'] at h
      rcases List.mem_cons.mp ho with rfl | hmem
      · rfl
      · exact ih h o hmem
    | some s =>
      exfalso
      cases hrest : evictPick rest with
      | none => simp [evictPick, hrest] at h
      | some p =>
        obtain ⟨j, t⟩ := p
        simp only [evictPick, hrest] at h
        by_cases hb : evictBefore t s
        · rw [if_pos hb] at h; simp at h
        · rw [if_neg hb] at h; simp at h

theorem evictPick_min (slots : List (Option SlotData)) (i : ℕ) (s : SlotData)
    (h : evictPick slots = some (i, s)) :
    ∀ j t, slots.get? j = some (some t) →
      s.usage < t.usage ∨ (s.usage = t.usage ∧
        (s.born < t.born ∨ (s.born = t.born ∧ i ≤ j))) := by
  induction slots generalizing i s with
  | nil => simp [evictPick] at h
  | cons o rest ih =>
    cases o with
    | none =>
      simp only [evictPick, Option.map_eq_some'] at h
      obtain ⟨⟨j0, t0⟩, hj0, he⟩ := h
      have hi : j0 + 1 = i := congrArg Prod.fst he
      have hs : t0 = s := congrArg Prod.snd he
      subst hi; subst hs
      intro j t hj
      cases j with
      | zero => simp at hj
      | succ n =>
        have := ih j0 t0 hj0 n t hj
        omega
    | some u =>
      cases hrest : evictPick rest with
      | none =>
        simp only [evictPick, hrest] at h
        injection h with h
        have hi : (0 : ℕ) = i := congrArg Prod.fst h
        have hs : u = s := congrArg Prod.snd h
        subst hi; subst hs
        intro j t hj
        cases j with
        | zero =>
          simp only [List.get?] at hj
          injection hj with hj
          injection hj with hj
          subst hj
          omega
        | succ n =>
          exfalso
          have hall := evictPick_none rest hrest
          have hmem : (some t : Option SlotData) ∈ rest := List.get?_mem hj
          simpa using hall _ hmem
      | some p =>
        obtain ⟨j0, t0⟩ := p
        simp only [evictPick, hrest] at h
        by_cases hb : evictBefore t0 u
        · rw [if_pos hb] at h
          injection h with h
          have hi : j0 + 1 = i := congrArg Prod.fst h
          have hs : t0 = s := congrArg Prod.snd h
          subst hi; subst hs
          simp only [evictBefore, decide_eq_true_eq] at hb
          intro j t hj
          cases j with
          | zero =>
            simp only [List.get?] at hj
            injection hj with hj
            injection hj with hj
            subst hj
            omega
          | succ n =>
            have := ih j0 t0 hrest n t hj
            omega
        · rw [if_neg hb] at h
          injection h with h
          have hi : (0 : ℕ) = i := congrArg Prod.fst h
          have hs : u = s := congrArg Prod.snd h
          subst hi; subst hs
          simp only [evictBefore, decide_eq_true_eq] at hb
          intro j t hj
          cases j with
          | zero =>
            simp only [List.get?] at hj
            injection hj with hj
            injection hj with hj
            subst hj
            omega
          | succ n =>
            have := ih j0 t0 hrest n t hj
            omega

theorem write_ok_dim (m : MemoryStore) (id : String) (v : List ℚ) (ws : ℚ)
    (m' : MemoryStore) (h : write m id v ws = .ok m') : m'.dim = m.dim := by
  unfold write at h
  split at h
  · exact absurd h (by simp)
  · split at h
    · exact absurd h (by simp)
    · injection h with h
      subst h
      split
      · rfl
      · split
        · rfl
        · split
          · rfl
          · rfl

theorem write_ok_capacity (m : MemoryStore) (id : String) (v : List ℚ) (ws : ℚ)
    (m' : MemoryStore) (h : write m id v ws = .ok m') : m'.capacity = m.capacity := by
  unfold write at h
  split at h
  · exact absurd h (by simp)
  · split at h
    · exact absurd h (by simp)
    · injection h with h
      subst h
      unfold MemoryStore.capacity
      split
      · simp
      · split
        · simp
        · split
          · simp
          · rfl

theorem writeStep_dim (m : MemoryStore) (op : String × List ℚ × ℚ) :
    (writeStep m op).dim = m.dim := by
  unfold writeStep
  cases hw : write m op.1 op.2.1 op.2.2 with
  | ok m' => exact write_ok_dim _ _ _ _ _ hw
  | error e => rfl

theorem writeStep_capacity (m : MemoryStore) (op : String × List ℚ × ℚ) :
    (writeStep m op).capacity = m.capacity := by
  unfold writeStep
  cases hw : write m op.1 op.2.1 op.2.2 with
  | ok m' => exact write_ok_capacity _ _ _ _ _ hw
  | error e => rfl

theorem writeMany_capacity (ops : List (String × List ℚ × ℚ)) (m : MemoryStore) :
    (writeMany m ops).capacity = m.capacity := by
  induction ops generalizing m with
  | nil => rfl
  | cons op rest ih =>
    show (writeMany (writeStep m op) rest).capacity = m.capacity
    rw [ih, writeStep_capacity]

theorem occupied_le_capacity (m : MemoryStore) :
    m.occupiedCount ≤ m.capacity :=
  List.countP_le_length _

theorem lt_length_of_get?_some {α : Type} (l : List α) (i : ℕ) (a : α)
    (h : l.get? i = some a) : i < l.length := by
  by_contra hge
  rw [List.get?_eq_none.mpr (le_of_not_lt hge)] at h
  simp at h

theorem findSlot?_isSome_elim (slots : List (Option SlotData)) (id : String)
    (h : (findSlot? slots id).isSome) :
    ∃ j t, slots.get? j = some (some t) ∧ t.nodeId = id := by
  cases hx : findSlot? slots id with
  | none => rw [hx] at h; simp at h
  | some p =>
    obtain ⟨j, t⟩ := p
    obtain ⟨hg, hn⟩ := findSlot?_some slots id j t hx
    exact ⟨j, t, hg, hn⟩

theorem card_append_singleton_mem (l : List String) (a : String) (h : a ∈ l) :
    (l ++ [a]).toFinset.card = l.toFinset.card := by
  rw [List.toFinset_append, Finset.union_comm]
  simp only [List.toFinset_cons, List.toFinset_nil, Finset.insert_union, Finset.empty_union]
  rw [Finset.insert_eq_self.mpr (List.mem_toFinset.mpr h)]

theorem card_append_singleton_not_mem (l : List String) (a : String) (h : a ∉ l) :
    (l ++ [a]).toFinset.card = l.toFinset.card + 1 := by
  rw [List.toFinset_append, Finset.union_comm]
  simp only [List.toFinset_cons, List.toFinset_nil, Finset.insert_union, Finset.empty_union]
  rw [Finset.card_insert_of_not_mem (by simpa using h)]

theorem card_le_append_singleton (l : List String) (a : String) :
    l.toFinset.card ≤ (l ++ [a]).toFinset.card := by
  apply Finset.card_le_card
  simp [List.toFinset_append]

theorem writeStep_inv (m : MemoryStore) (seen : List String) (op : String × List ℚ × ℚ)
    (hv : validOp m.dim op) (hI : StoreInv m seen) :
    StoreInv (writeStep m op) (seen ++ [op.1]) := by
  obtain ⟨id, v, ws⟩ := op
  obtain ⟨hlen, hws0, hws1⟩ := hv
  unfold StoreInv MemoryStore.occupiedCount MemoryStore.capacity at hI ⊢
  obtain ⟨hcnt, hsub, hfull⟩ := hI
  have hnd : ¬(v.length ≠ m.dim) := by simpa using hlen
  have hnw : ¬(ws < 0 ∨ 1 < ws) := by push_neg; exact ⟨hws0, hws1⟩
  cases hfs : findSlot? m.slots id with
  | some p =>
    obtain ⟨i, s⟩ := p
    obtain ⟨hget, hsid⟩ := findSlot?_some m.slots id i s hfs
    have hw : writeStep m (id, v, ws) =
        { m with
          slots := m.slots.set i (some { s with vec := blend ws s.vec v, usage := s.usage + 1 })
          clock := m.clock + 1 } := by
      unfold writeStep write
      rw [if_neg hnd, if_neg hnw]
      simp only [hfs]
    rw [hw]
    dsimp only
    have hidseen : id ∈ seen := hsub id (by rw [hfs]; rfl)
    have hcount' := countP_isSome_set_some m.slots i s
      { s with vec := blend ws s.vec v, usage := s.usage + 1 } hget
    refine ⟨?_, ?_, ?_⟩
    · rw [hcount', List.length_set, card_append_singleton_mem seen id hidseen]
      exact hcnt
    · intro id' hsome
      obtain ⟨j, t, hjt, hnid⟩ := findSlot?_isSome_elim _ id' hsome
      by_cases hji : j = i
      · subst hji
        rw [get?_set_self _ _ _ (lt_length_of_get?_some _ _ _ hget)] at hjt
        injection hjt with hjt
        injection hjt with hjt
        have : t.nodeId = s.nodeId := by rw [← hjt]
        rw [hnid, hsid] at this
        subst this
        exact List.mem_append_left _ hidseen
      · rw [get?_set_ne _ _ _ _ (fun he => hji he.symm)] at hjt
        exact List.mem_append_left _ (hsub id' (findSlot?_isSome_of_get? m.slots id' j t hjt hnid))
    · intro hlt id' hid'
      rw [hcount', List.length_set] at hlt
      rcases List.mem_append.mp hid' with hmem | hmem
      · obtain ⟨j, t, hjt, hnid⟩ := findSlot?_isSome_elim m.slots id' (hfull hlt id' hmem)
        by_cases hji : j = i
        · rw [hji, hget] at hjt
          injection hjt with hjt
          injection hjt with hjt
          refine findSlot?_isSome_of_get? _ id' i _
            (get?_set_self _ _ _ (lt_length_of_get?_some _ _ _ hget)) ?_
          dsimp only
          rw [hjt]
          exact hnid
        · refine findSlot?_isSome_of_get? _ id' j t ?_ hnid
          rw [get?_set_ne _ _ _ _ (fun he => hji he.symm)]
          exact hjt
      · have : id' = id := by simpa using hmem
        subst this
        refine findSlot?_isSome_of_get? _ id' i _ (get?_set_self _ _ _ (lt_length_of_get?_some _ _ _ hget)) ?_
        rw [hsid]
  | none =>
    cases hfr : findFree? m.slots with
    | some i =>
      have hgetfree : m.slots.get? i = some none := findFree?_some m.slots i hfr
      have hilt : i < m.slots.length := lt_length_of_get?_some _ _ _ hgetfree
      have hw : writeStep m (id, v, ws) =
          { m with
            slots := m.slots.set i (some ⟨id, v, 1, m.clock⟩)
            clock := m.clock + 1 } := by
        unfold writeStep write
        rw [if_neg hnd, if_neg hnw]
        simp only [hfs, hfr]
      rw [hw]
      dsimp only
      have hlt : m.slots.countP Option.isSome < m.slots.length :=
        countP_lt_of_get?_none m.slots i hgetfree
      have hnotin : id ∉ seen := by
        intro hmem
        have := hfull hlt id hmem
        rw [hfs] at this
        simp at this
      have hcount' := countP_isSome_set_none m.slots i ⟨id, v, 1, m.clock⟩ hgetfree
      refine ⟨?_, ?_, ?_⟩
      · rw [hcount', List.length_set, card_append_singleton_not_mem seen id hnotin]
        omega
      · intro id' hsome
        obtain ⟨j, t, hjt, hnid⟩ := findSlot?_isSome_elim _ id' hsome
        by_cases hji : j = i
        · subst hji
          rw [get?_set_self _ _ _ hilt] at hjt
          injection hjt with hjt
          injection hjt with hjt
          have : t.nodeId = id := by rw [← hjt]
          rw [hnid] at this
          subst this
          simp
        · rw [get?_set_ne _ _ _ _ (fun he => hji he.symm)] at hjt
          exact List.mem_append_left _ (hsub id' (findSlot?_isSome_of_get? m.slots id' j t hjt hnid))
      · intro _ id' hid'
        rcases List.mem_append.mp hid' with hmem | hmem
        · obtain ⟨j, t, hjt, hnid⟩ := findSlot?_isSome_elim m.slots id' (hfull hlt id' hmem)
          have hji : j ≠ i := by
            intro he
            subst he
            rw [hgetfree] at hjt
            simp at hjt
          refine findSlot?_isSome_of_get? _ id' j t ?_ hnid
          rw [get?_set_ne _ _ _ _ (fun he => hji he.symm)]
          exact hjt
        · have : id' = id := by simpa using hmem
          subst this
          exact findSlot?_isSome_of_get? _ id' i _ (get?_set_self _ _ _ hilt) rfl
    | none =>
      cases hev : evictPick m.slots with
      | some p =>
        obtain ⟨i, s⟩ := p
        have hget : m.slots.get? i = some (some s) := evictPick_get m.slots i s hev
        have hilt : i < m.slots.length := lt_length_of_get?_some _ _ _ hget
        have hw : writeStep m (id, v, ws) =
            { m with
              slots := m.slots.set i (some ⟨id, v, 1, m.clock⟩)
              clock := m.clock + 1 } := by
          unfold writeStep write
          rw [if_neg hnd, if_neg hnw]
          simp only [hfs, hfr, hev]
        rw [hw]
        dsimp only
        have hall : ∀ o ∈ m.slots, o.isSome := findFree?_none m.slots hfr
        have hcap : m.slots.countP Option.isSome = m.slots.length :=
          List.countP_eq_length.mpr hall
        have hcount' := countP_isSome_set_some m.slots i s ⟨id, v, 1, m.clock⟩ hget
        have hcard_le := card_le_append_singleton seen id
        refine ⟨?_, ?_, ?_⟩
        · rw [hcount', List.length_set]
          omega
        · intro id' hsome
          obtain ⟨j, t, hjt, hnid⟩ := findSlot?_isSome_elim _ id' hsome
          by_cases hji : j = i
          · subst hji
            rw [get?_set_self _ _ _ hilt] at hjt
            injection hjt with hjt
            injection hjt with hjt
            have : t.nodeId = id := by rw [← hjt]
            rw [hnid] at this
            subst this
            simp
          · rw [get?_set_ne _ _ _ _ (fun he => hji he.symm)] at hjt
            exact List.mem_append_left _ (hsub id' (findSlot?_isSome_of_get? m.slots id' j t hjt hnid))
        · intro hlt
          rw [hcount', List.length_set] at hlt
          omega
      | none =>
        have hnil : m.slots = [] := by
          cases hsl : m.slots with
          | nil => rfl
          | cons o rest =>
            exfalso
            have hmem : o ∈ m.slots := by rw [hsl]; exact List.mem_cons_self o rest
            have hsome := findFree?_none m.slots hfr o hmem
            have hnone := evictPick_none m.slots hev o hmem
            rw [hnone] at hsome
            simp at hsome
        have hw : writeStep m (id, v, ws) = m := by
          unfold writeStep write
          rw [if_neg hnd, if_neg hnw]
          simp only [hfs, hfr, hev]
        rw [hw]
        refine ⟨?_, ?_, ?_⟩
        · rw [hnil]
          simp
        · intro id' hsome
          rw [hnil] at hsome
          simp [findSlot?] at hsome
        · intro hlt
          rw [hnil] at hlt
          simp at hlt

theorem findSlot?_replicate_none (n : ℕ) (id : String) :
    findSlot? (List.replicate n none) id = none := by
  induction n with
  | zero => rfl
  | succ k ih => simp [List.replicate, findSlot?, ih]

theorem storeInv_mkStore (dim cap : ℕ) : StoreInv (mkStore dim cap) [] := by
  unfold StoreInv mkStore MemoryStore.occupiedCount MemoryStore.capacity
  refine ⟨?_, ?_, ?_⟩
  · dsimp only
    rw [List.countP_eq_zero.mpr]
    · simp
    · intro a ha
      rw [List.eq_of_mem_replicate ha]
      simp
  · intro id h
    dsimp only at h
    rw [findSlot?_replicate_none] at h
    simp at h
  · intro _ id hmem
    simp at hmem

theorem writeMany_inv (dim : ℕ) (ops : List (String × List ℚ × ℚ)) (m : MemoryStore)
    (seen : List String) (hm : m.dim = dim)
    (hv : ∀ op ∈ ops, validOp dim op) (hI : StoreInv m seen) :
    StoreInv (writeMany m ops) (seen ++ ops.map Prod.fst) := by
  induction ops generalizing m seen with
  | nil => simpa using hI
  | cons op rest ih =>
    have h1 : StoreInv (writeStep m op) (seen ++ [op.1]) := by
      refine writeStep_inv m seen op ?_ hI
      rw [hm]
      exact hv op (List.mem_cons_self op rest)
    have h2 := ih (writeStep m op) (seen ++ [op.1])
      (by rw [writeStep_dim, hm]) (fun o ho => hv o (List.mem_cons_of_mem _ ho)) h1
    show StoreInv (writeMany (writeStep m op) rest) _
    simpa [List.append_assoc] using h2

/-- C1: a Dynamic Memory Module constructed with capacity `C` keeps its
capacity constant across every finite sequence of `Write` calls, its
occupied-slot count never exceeds `C`, and once the (valid) calls of the
sequence have touched more than `C` distinct node ids the occupied count
is exactly `C`. -/
theorem capacity_invariant (dim cap : ℕ) (ops : List (String × List ℚ × ℚ)) :
    (writeMany (mkStore dim cap) ops).capacity = cap ∧
    (writeMany (mkStore dim cap) ops).occupiedCount ≤ cap ∧
    ((∀ op ∈ ops, validOp dim op) →
      cap < (ops.map Prod.fst).toFinset.card →
      (writeMany (mkStore dim cap) ops).occupiedCount = cap) := by
  have hcap : (writeMany (mkStore dim cap) ops).capacity = cap := by
    rw [writeMany_capacity]
    simp [mkStore, MemoryStore.capacity]
  refine ⟨hcap, ?_, ?_⟩
  · calc (writeMany (mkStore dim cap) ops).occupiedCount
        ≤ (writeMany (mkStore dim cap) ops).capacity := occupied_le_capacity _
      _ = cap := hcap
  · intro hv hgt
    have hI := writeMany_inv dim ops (mkStore dim cap) [] rfl hv (storeInv_mkStore dim cap)
    unfold StoreInv at hI
    obtain ⟨hcnt, -, -⟩ := hI
    rw [List.nil_append] at hcnt
    rw [hcnt, hcap]
    omega

/-- Witness for C1 at capacity 1, two distinct valid writes. -/
theorem capacity_invariant_witness :
    (writeMany (mkStore 1 1) [("a", [1], 1), ("b", [2], 1)]).capacity = 1 ∧
    (writeMany (mkStore 1 1) [("a", [1], 1), ("b", [2], 1)]).occupiedCount ≤ 1 ∧
    (writeMany (mkStore 1 1) [("a", [1], 1), ("b", [2], 1)]).occupiedCount = 1 := by
  have h := capacity_invariant 1 1 [("a", [1], 1), ("b", [2], 1)]
  exact ⟨h.1, h.2.1, h.2.2 (by decide) (by decide)⟩

/-- C2: a valid `Write` of a node id that occupies no slot, on a store
with no free slot, overwrites exactly the slot picked by `evictPick`, and
that slot has the minimal usage counter of all occupied slots, ties
broken by the oldest write stamp and then by the lowest slot index. -/
theorem write_evicts_lowest_usage (m : MemoryStore) (id : String) (v : List ℚ) (ws : ℚ)
    (i : ℕ) (s : SlotData)
    (hfs : findSlot? m.slots id = none)
    (hfr : findFree? m.slots = none)
    (hev : evictPick m.slots = some (i, s))
    (hlen : v.length = m.dim) (hws0 : 0 ≤ ws) (hws1 : ws ≤ 1) :
    write m id v ws = .ok
      { m with slots := m.slots.set i (some ⟨id, v, 1, m.clock⟩), clock := m.clock + 1 } ∧
    ∀ j t, m.slots.get? j = some (some t) →
      s.usage < t.usage ∨ (s.usage = t.usage ∧
        (s.born < t.born ∨ (s.born = t.born ∧ i ≤ j))) := by
  constructor
  · unfold write
    rw [if_neg (by simpa using hlen), if_neg (by push_neg; exact ⟨hws0, hws1⟩)]
    simp only [hfs, hfr, hev]
  · exact evictPick_min m.slots i s hev

/-- Witness for C2: two occupied slots with usage counters 0 and 2;
writing a new, unseen node id evicts the slot with counter 0. -/
theorem write_evicts_lowest_usage_witness :
    (write ⟨1, [some ⟨"a", [1], 0, 0⟩, some ⟨"b", [2], 2, 1⟩], 2⟩ "c" [5] 1 = .ok
      { dim := 1, slots := ([some ⟨"a", [1], 0, 0⟩, some ⟨"b", [2], 2, 1⟩] :
          List (Option SlotData)).set 0 (some ⟨"c", [5], 1, 2⟩), clock := 3 } ∧
    ∀ j t, ([some ⟨"a", [1], 0, 0⟩, some ⟨"b", [2], 2, 1⟩] :
        List (Option SlotData)).get? j = some (some t) →
      (0 : ℕ) < t.usage ∨ ((0 : ℕ) = t.usage ∧
        ((0 : ℕ) < t.born ∨ ((0 : ℕ) = t.born ∧ 0 ≤ j)))) :=
  write_evicts_lowest_usage ⟨1, [some ⟨"a", [1], 0, 0⟩, some ⟨"b", [2], 2, 1⟩], 2⟩
    "c" [5] 1 0 ⟨"a", [1], 0, 0⟩ (by decide) (by decide) (by decide)
    (by decide) (by decide) (by decide)

theorem blend_get? (ws : ℚ) (old new : List ℚ) (j : ℕ) (a b : ℚ)
    (ha : old.get? j = some a) (hb : new.get? j = some b) :
    (blend ws old new).get? j = some ((1 - ws) * a + ws * b) := by
  induction old generalizing new j with
  | nil => simp at ha
  | cons x rest ih =>
    cases new with
    | nil => simp at hb
    | cons y rest2 =>
      cases j with
      | zero =>
        simp only [List.get?] at ha hb
        injection ha with ha
        injection hb with hb
        subst ha; subst hb
        rfl
      | succ n =>
        simp only [List.get?] at ha hb
        show (blend ws (x :: rest) (y :: rest2)).get? (n + 1) = _
        simp only [blend, List.zipWith, List.get?]
        exact ih rest2 n ha hb

/-- C3: a valid `Write` to a node id that already occupies a slot blends
the stored vector — coordinatewise
`new = (1 - write_strength) * old + write_strength * vector` — and
increments the slot's usage counter; no other slot changes. -/
theorem write_blends_existing (m : MemoryStore) (id : String) (v : List ℚ) (ws : ℚ)
    (i : ℕ) (s : SlotData)
    (hfs : findSlot? m.slots id = some (i, s))
    (hlen : v.length = m.dim) (hws0 : 0 ≤ ws) (hws1 : ws ≤ 1) :
    write m id v ws = .ok
      { m with
        slots := m.slots.set i (some { s with vec := blend ws s.vec v, usage := s.usage + 1 })
        clock := m.clock + 1 } ∧
    (∀ j a b, s.vec.get? j = some a → v.get? j = some b →
      (blend ws s.vec v).get? j = some ((1 - ws) * a + ws * b)) := by
  constructor
  · unfold write
    rw [if_neg (by simpa using hlen), if_neg (by push_neg; exact ⟨hws0, hws1⟩)]
    simp only [hfs]
  · intro j a b ha hb
    exact blend_get? ws s.vec v j a b ha hb

/-- Witness for C3, realising the spec scenario: after writing `v1 = [1,2]`
to node `a`, a second write of `v2 = [3,4]` at strength `1/2` stores
`0.5*v1 + 0.5*v2 = [2,3]`. -/
theorem write_blends_existing_witness :
    (write ⟨2, [some ⟨"a", [1, 2], 1, 0⟩], 1⟩ "a" [3, 4] (1/2) = .ok
      { dim := 2, slots := ([some ⟨"a", [1, 2], 1, 0⟩] : List (Option SlotData)).set 0
          (some ⟨"a", blend (1/2) [1, 2] [3, 4], 2, 0⟩), clock := 2 } ∧
    (∀ j a b, ([1, 2] : List ℚ).get? j = some a → ([3, 4] : List ℚ).get? j = some b →
      (blend (1/2) [1, 2] [3, 4]).get? j = some ((1 - 1/2) * a + (1/2) * b))) ∧
    blend (1/2) [1, 2] [3, 4] = [2, 3] :=
  ⟨write_blends_existing ⟨2, [some ⟨"a", [1, 2], 1, 0⟩], 1⟩ "a" [3, 4] (1/2)
      0 ⟨"a", [1, 2], 1, 0⟩ (by decide) (by decide) (by norm_num) (by norm_num),
    by norm_num [blend]⟩

theorem map_if_idem {α : Type} (l : List α) (p : α → Prop) [DecidablePred p] (c : α)
    (hc : p c) :
    ((l.map fun x => if p x then c else x).map fun x => if p x then c else x) =
      l.map fun x => if p x then c else x := by
  induction l with
  | nil => rfl
  | cons x rest ih =>
    simp only [List.map_cons]
    rw [ih]
    by_cases h : p x
    · rw [if_pos h, if_pos hc]
    · rw [if_neg h, if_neg h]

theorem map_if_of_none {α : Type} (l : List α) (p : α → Prop) [DecidablePred p] (c : α)
    (h : ∀ x ∈ l, ¬ p x) : (l.map fun x => if p x then c else x) = l := by
  induction l with
  | nil => rfl
  | cons x rest ih =>
    simp only [List.map_cons]
    rw [if_neg (h x (List.mem_cons_self x rest)), ih fun y hy => h y (List.mem_cons_of_mem x hy)]

theorem add_edge_idem (g g1 : Graph) (src rel dst : String) (attrs : Attrs)
    (h : add_edge g src rel dst attrs = .ok g1) :
    add_edge g1 src rel dst attrs = .ok g1 := by
  unfold add_edge at h ⊢
  have hn : hasNode g src ∧ hasNode g dst := by
    by_contra hn
    rw [if_pos hn] at h
    exact absurd h (by simp)
  rw [if_neg (not_not_intro hn)] at h
  by_cases hdup : g.edges.any fun e => e.1 = src ∧ e.2.1 = rel ∧ e.2.2.1 = dst
  · rw [if_pos hdup] at h
    injection h with h
    subst h
    dsimp only [hasNode] at hn ⊢
    rw [if_neg (not_not_intro hn)]
    obtain ⟨e, hme, hpe⟩ := List.any_eq_true.mp hdup
    have hany2 : (g.edges.map fun e =>
        if e.1 = src ∧ e.2.1 = rel ∧ e.2.2.1 = dst then (src, rel, dst, attrs) else e).any
        (fun e => e.1 = src ∧ e.2.1 = rel ∧ e.2.2.1 = dst) = true := by
      refine List.any_eq_true.mpr ⟨(src, rel, dst, attrs), ?_, by simp⟩
      refine List.mem_map.mpr ⟨e, hme, ?_⟩
      rw [if_pos (by simpa using hpe)]
    rw [if_pos hany2]
    rw [map_if_idem g.edges (fun e => e.1 = src ∧ e.2.1 = rel ∧ e.2.2.1 = dst)
      (src, rel, dst, attrs) ⟨rfl, rfl, rfl⟩]
  · rw [if_neg hdup] at h
    injection h with h
    subst h
    dsimp only [hasNode] at hn ⊢
    rw [if_neg (not_not_intro hn)]
    have hany2 : ((g.edges ++ [(src, rel, dst, attrs)]).any
        fun e => e.1 = src ∧ e.2.1 = rel ∧ e.2.2.1 = dst) = true :=
      List.any_eq_true.mpr ⟨(src, rel, dst, attrs), List.mem_append_right _ (by simp), by simp⟩
    rw [if_pos hany2]
    have hnone : ∀ e ∈ g.edges, ¬(e.1 = src ∧ e.2.1 = rel ∧ e.2.2.1 = dst) := by
      intro e hme hpe
      exact hdup (List.any_eq_true.mpr ⟨e, hme, by simpa using hpe⟩)
    rw [List.map_append,
      map_if_of_none g.edges (fun e => e.1 = src ∧ e.2.1 = rel ∧ e.2.2.1 = dst)
        (src, rel, dst, attrs) hnone]
    simp

/-- C6: inserting the same `(src, relation, dst)` triple twice with
identical attrs is idempotent — the second insertion returns the same
graph, so `neighbors()` output keeps its cardinality for every node. -/
theorem add_edge_idempotent (g g1 g2 : Graph) (src rel dst : String) (attrs : Attrs)
    (h1 : add_edge g src rel dst attrs = .ok g1)
    (h2 : add_edge g1 src rel dst attrs = .ok g2) :
    g2 = g1 ∧ ∀ x, (neighbors g2 x).length = (neighbors g1 x).length := by
  rw [add_edge_idem g g1 src rel dst attrs h1] at h2
  injection h2 with h2
  subst h2
  exact ⟨rfl, fun x => rfl⟩

/-- Witness for C6 on a two-node graph with one `knows` edge. -/
theorem add_edge_idempotent_witness :
    (⟨[("A", "t", []), ("B", "t", [])], [("A", "knows", "B", [])]⟩ : Graph) =
      ⟨[("A", "t", []), ("B", "t", [])], [("A", "knows", "B", [])]⟩ ∧
    ∀ x, (neighbors ⟨[("A", "t", []), ("B", "t", [])], [("A", "knows", "B", [])]⟩ x).length =
      (neighbors ⟨[("A", "t", []), ("B", "t", [])], [("A", "knows", "B", [])]⟩ x).length :=
  add_edge_idempotent ⟨[("A", "t", []), ("B", "t", [])], []⟩
    ⟨[("A", "t", []), ("B", "t", [])], [("A", "knows", "B", [])]⟩
    ⟨[("A", "t", []), ("B", "t", [])], [("A", "knows", "B", [])]⟩
    "A" "knows" "B" [] (by rfl) (by rfl)

theorem node_find?_map (l : List (String × String × Attrs)) (id ty : String) (attrs : Attrs)
    (x : String × String × Attrs)
    (h : l.find? (fun n => n.1 = id) = some x) :
    ((l.map fun n => if n.1 = id then (id, ty, attrs) else n).find? fun n => n.1 = id)
      = some (id, ty, attrs) := by
  induction l with
  | nil => simp at h
  | cons n rest ih =>
    by_cases hp : n.1 = id
    · simp only [List.map_cons, if_pos hp]
      rw [List.find?_cons_of_pos _ (by simp)]
    · simp only [List.map_cons, if_neg hp]
      rw [List.find?_cons_of_neg _ (by simpa using hp)]
      rw [List.find?_cons_of_neg _ (by simpa using hp)] at h
      exact ih h

/-- C7: `add_node(id, type, attrs)` fails with `ConflictError` exactly
when a node with that id exists with a different type; it returns a graph
otherwise (insert or update), and re-running it on its own result with
identical attrs returns that result unchanged. -/
theorem add_node_conflict (g : Graph) (id ty : String) (attrs : Attrs) :
    (add_node g id ty attrs = .error .conflictError ↔
      ∃ p, lookupNode g id = some p ∧ p.1 ≠ ty) ∧
    ((∃ g', add_node g id ty attrs = .ok g') ↔
      ¬ ∃ p, lookupNode g id = some p ∧ p.1 ≠ ty) ∧
    (∀ g1, add_node g id ty attrs = .ok g1 → add_node g1 id ty attrs = .ok g1) := by
  cases hl : lookupNode g id with
  | none =>
    refine ⟨?_, ?_, ?_⟩
    · unfold add_node
      rw [hl]
      simp
    · unfold add_node
      rw [hl]
      simp
    · intro g1 h
      unfold add_node at h
      rw [hl] at h
      injection h with h
      subst h
      unfold add_node
      have hfind : g.nodes.find? (fun n => n.1 = id) = none := by
        unfold lookupNode at hl
        exact Option.map_eq_none'.mp hl
      have hlook : lookupNode { g with nodes := g.nodes ++ [(id, ty, attrs)] } id
          = some (ty, attrs) := by
        unfold lookupNode
        dsimp only
        rw [List.find?_append, hfind]
        simp [List.find?]
      simp only [hlook]
      rw [if_pos trivial]
      have hnotin : ∀ x ∈ g.nodes, ¬(x.1 = id) := by
        intro x hx
        have := List.find?_eq_none.mp hfind x hx
        simpa using this
      rw [List.map_append,
        map_if_of_none g.nodes (fun n => n.1 = id) (id, ty, attrs) hnotin]
      simp
  | some p =>
    obtain ⟨ty0, at0⟩ := p
    by_cases hty : ty0 = ty
    · refine ⟨?_, ?_, ?_⟩
      · unfold add_node
        simp only [hl]
        rw [if_pos hty]
        simp [hty]
      · unfold add_node
        simp only [hl]
        rw [if_pos hty]
        simp [hty]
      · intro g1 h
        unfold add_node at h
        simp only [hl] at h
        rw [if_pos hty] at h
        injection h with h
        subst h
        unfold add_node
        obtain ⟨x, hx, hsnd⟩ := Option.map_eq_some'.mp hl
        have hlook : lookupNode { g with nodes := (g.nodes.map
            fun n => if n.1 = id then (id, ty, attrs) else n) } id = some (ty, attrs) := by
          unfold lookupNode
          dsimp only
          rw [node_find?_map g.nodes id ty attrs x hx]
          rfl
        simp only [hlook]
        rw [if_pos trivial]
        rw [map_if_idem g.nodes (fun n => n.1 = id) (id, ty, attrs) rfl]
    · refine ⟨?_, ?_, ?_⟩
      · unfold add_node
        simp only [hl]
        rw [if_neg hty]
        exact ⟨fun _ => ⟨(ty0, at0), rfl, hty⟩, fun _ => rfl⟩
      · unfold add_node
        simp only [hl]
        rw [if_neg hty]
        constructor
        · rintro ⟨g', hg⟩
          exact Except.noConfusion hg
        · intro hn
          exact absurd ⟨(ty0, at0), rfl, hty⟩ hn
      · intro g1 h
        unfold add_node at h
        simp only [hl] at h
        rw [if_neg hty] at h
        exact absurd h (by simp)

/-- Witness for C7: adding a node to the empty graph and re-adding it
with identical attrs returns the same graph. -/
theorem add_node_conflict_witness :
    add_node ⟨[("A", "person", [])], []⟩ "A" "person" [] =
      .ok ⟨[("A", "person", [])], []⟩ :=
  (add_node_conflict Graph.empty "A" "person" []).2.2 ⟨[("A", "person", [])], []⟩ (by rfl)

/-- C8: every failing operation leaves the store it ran against
unchanged — `Write` and `Read` on the memory store, `add_node` and
`add_edge` on the graph store, and `get` and `set` on the embedding
table return the original state alongside their error (validation
precedes every mutation; the table's `similarity` is a pure function
that cannot fail, so it raises no error at all). -/
theorem errors_leave_state_unchanged :
    (∀ (m : MemoryStore) (id : String) (v : List ℚ) (ws : ℚ),
      (writeRun m id v ws).2.isSome → (writeRun m id v ws).1 = m) ∧
    (∀ (m : MemoryStore) (q : List ℚ) (k : ℕ),
      (readRun m q k).2.isSome → (readRun m q k).1 = m) ∧
    (∀ (g : Graph) (id ty : String) (attrs : Attrs),
      (addNodeRun g id ty attrs).2.isSome → (addNodeRun g id ty attrs).1 = g) ∧
    (∀ (g : Graph) (src rel dst : String) (attrs : Attrs),
      (addEdgeRun g src rel dst attrs).2.isSome → (addEdgeRun g src rel dst attrs).1 = g) ∧
    (∀ (t : EmbeddingTable) (id : String),
      (embedGetRun t id).2.isSome → (embedGetRun t id).1 = t) ∧
    (∀ (t : EmbeddingTable) (id : String) (v : List ℚ),
      (embedSetRun t id v).2.isSome → (embedSetRun t id v).1 = t) := by
  refine ⟨?_, ?_, ?_, ?_, ?_, ?_⟩
  · intro m id v ws
    unfold writeRun
    cases hw : write m id v ws with
    | ok m' => simp [hw]
    | error e => simp [hw]
  · intro m q k
    unfold readRun
    cases hr : read m q k with
    | ok p => obtain ⟨res, m'⟩ := p; simp [hr]
    | error e => simp [hr]
  · intro g id ty attrs
    unfold addNodeRun
    cases hn : add_node g id ty attrs with
    | ok g' => simp [hn]
    | error e => simp [hn]
  · intro g src rel dst attrs
    unfold addEdgeRun
    cases he : add_edge g src rel dst attrs with
    | ok g' => simp [he]
    | error e => simp [he]
  · intro t id
    unfold embedGetRun
    cases hg : embedGet t id with
    | ok v => simp [hg]
    | error e => simp [hg]
  · intro t id v
    unfold embedSetRun
    cases hs : embedSet t id v with
    | ok t' => simp [hs]
    | error e => simp [hs]

/-- Witness for C8: a dimension-mismatched write, read and embedding
set, a conflicting node insert, an edge between absent endpoints, and an
embedding lookup of an absent id each fail and leave the state
unchanged. -/
theorem errors_leave_state_unchanged_witness :
    (writeRun (mkStore 2 1) "a" [1] 0).1 = mkStore 2 1 ∧
    (readRun (mkStore 2 1) [1] 1).1 = mkStore 2 1 ∧
    (addNodeRun ⟨[("A", "person", [])], []⟩ "A" "place" []).1 = ⟨[("A", "person", [])], []⟩ ∧
    (addEdgeRun Graph.empty "A" "knows" "B" []).1 = Graph.empty ∧
    (embedGetRun ⟨2, []⟩ "A").1 = ⟨2, []⟩ ∧
    (embedSetRun ⟨2, []⟩ "A" [1]).1 = ⟨2, []⟩ :=
  ⟨errors_leave_state_unchanged.1 (mkStore 2 1) "a" [1] 0 (by rfl),
   errors_leave_state_unchanged.2.1 (mkStore 2 1) [1] 1 (by rfl),
   errors_leave_state_unchanged.2.2.1 ⟨[("A", "person", [])], []⟩ "A" "place" [] (by rfl),
   errors_leave_state_unchanged.2.2.2.1 Graph.empty "A" "knows" "B" [] (by rfl),
   errors_leave_state_unchanged.2.2.2.2.1 ⟨2, []⟩ "A" (by rfl),
   errors_leave_state_unchanged.2.2.2.2.2 ⟨2, []⟩ "A" [1] (by rfl)⟩

/-- C9: `setup.py` reaches `setup()` only when `README.md` exists and is
readable as UTF-8; with the file absent, the `open` raises before
`setup()` is ever invoked. -/
theorem setup_requires_readme :
    runSetup .absent = .error .fileNotFoundError ∧
    (∀ r : FileResult, (∃ a, runSetup r = .ok a) ↔ ∃ s, r = .content s) := by
  refine ⟨rfl, ?_⟩
  intro r
  cases r with
  | absent => simp [runSetup]
  | notUtf8 => simp [runSetup]
  | content s => simp [runSetup]

/-- C10: for a fixed `README.md` content the arguments passed to
`setup()` are fixed — name `graphfusionai`, version `0.1.4`,
`long_description` the README contents verbatim, package discovery
rooted at `src` — and two runs over the same contents produce identical
argument records. -/
theorem setup_args_deterministic (s : String) :
    runSetup (.content s) = .ok (setupArgs s) ∧
    (setupArgs s).name = "graphfusionai" ∧
    (setupArgs s).version = "0.1.4" ∧
    (setupArgs s).longDescription = s ∧
    (setupArgs s).packagesWhere = "src" ∧
    (setupArgs s).packageDir = [("", "src")] ∧
    ∀ r₁ r₂ : FileResult, r₁ = .content s → r₂ = .content s → runSetup r₁ = runSetup r₂ := by
  refine ⟨rfl, rfl, rfl, rfl, rfl, rfl, ?_⟩
  intro r₁ r₂ h1 h2
  rw [h1, h2]

/-- Witness for C10 at a concrete README content. -/
theorem setup_args_deterministic_witness :
    runSetup (.content "hello") = runSetup (.content "hello") :=
  (setup_args_deterministic "hello").2.2.2.2.2.2 (.content "hello") (.content "hello") rfl rfl

theorem qStep_done (g : Graph) (mh : ℕ) (s : QState) (h : s.phase = .done) :
    qStep g mh s = s := by
  unfold qStep
  rw [h]

theorem qStep_iterate_done (g : Graph) (mh : ℕ) (n : ℕ) (s : QState) (h : s.phase = .done) :
    (qStep g mh)^[n] s = s := by
  induction n with
  | zero => rfl
  | succ k ih => rw [Function.iterate_succ_apply, qStep_done g mh s h, ih]

theorem qStep_reaches_done (g : Graph) (mh : ℕ) (n : ℕ) (s : QState)
    (hle : mh ≤ s.hops + n) : ((qStep g mh)^[n + 1] s).phase = .done := by
  induction n generalizing s with
  | zero =>
    rw [Function.iterate_one]
    cases hp : s.phase with
    | done => rw [qStep_done g mh s hp]; exact hp
    | expand =>
      simp only [qStep, hp]
      rw [if_pos (Or.inr (by simpa using hle))]
  | succ k ih =>
    cases hp : s.phase with
    | done =>
      rw [qStep_iterate_done g mh _ s hp]
      exact hp
    | expand =>
      by_cases hguard : s.frontier = [] ∨ mh ≤ s.hops
      · have h1 : qStep g mh s = { s with phase := .done } := by
          simp only [qStep, hp]
          rw [if_pos hguard]
        rw [Function.iterate_succ_apply, h1, qStep_iterate_done g mh _ _ rfl]
      · have hhops : (qStep g mh s).hops = s.hops + 1 := by
          simp only [qStep, hp]
          rw [if_neg hguard]
        rw [Function.iterate_succ_apply]
        apply ih
        rw [hhops]
        omega

theorem qStep_log_invariant (g : Graph) (mh : ℕ) (s : QState)
    (h1 : s.expandedLog.Nodup) (h2 : s.frontier.Nodup)
    (h3 : ∀ x ∈ s.frontier, x ∉ s.visited)
    (h4 : ∀ x ∈ s.expandedLog, x ∈ s.visited) :
    (qStep g mh s).expandedLog.Nodup ∧ (qStep g mh s).frontier.Nodup ∧
    (∀ x ∈ (qStep g mh s).frontier, x ∉ (qStep g mh s).visited) ∧
    (∀ x ∈ (qStep g mh s).expandedLog, x ∈ (qStep g mh s).visited) := by
  cases hp : s.phase with
  | done =>
    rw [qStep_done g mh s hp]
    exact ⟨h1, h2, h3, h4⟩
  | expand =>
    simp only [qStep, hp]
    by_cases hguard : s.frontier = [] ∨ mh ≤ s.hops
    · rw [if_pos hguard]
      exact ⟨h1, h2, h3, h4⟩
    · rw [if_neg hguard]
      refine ⟨?_, ?_, ?_, ?_⟩
      · refine List.Nodup.append h1 h2 ?_
        intro a ha haf
        exact h3 a haf (h4 a ha)
      · exact List.nodup_dedup _
      · intro x hx
        have hx' := List.mem_filter.mp (List.mem_dedup.mp hx)
        simpa using hx'.2
      · intro x hx
        rcases List.mem_append.mp hx with hmem | hmem
        · exact List.mem_append_left _ (h4 x hmem)
        · exact List.mem_append_right _ hmem

theorem qStep_iterate_log_nodup (g : Graph) (mh : ℕ) (seed : String) (n : ℕ) :
    ((qStep g mh)^[n] (initQState seed)).expandedLog.Nodup ∧
    ((qStep g mh)^[n] (initQState seed)).frontier.Nodup ∧
    (∀ x ∈ ((qStep g mh)^[n] (initQState seed)).frontier,
      x ∉ ((qStep g mh)^[n] (initQState seed)).visited) ∧
    (∀ x ∈ ((qStep g mh)^[n] (initQState seed)).expandedLog,
      x ∈ ((qStep g mh)^[n] (initQState seed)).visited) := by
  induction n with
  | zero =>
    refine ⟨by simp [initQState], by simp [initQState], ?_, ?_⟩
    · intro x hx
      simp [initQState]
    · intro x hx
      simp [initQState] at hx
  | succ k ih =>
    rw [Function.iterate_succ_apply']
    exact qStep_log_invariant g mh _ ih.1 ih.2.1 ih.2.2.1 ih.2.2.2

theorem rankBefore_imp_rankLE (q : List ℚ) (a b : ℕ × SlotData)
    (h : rankBefore q a b) : rankLE q a b := by
  unfold rankBefore at h
  unfold rankLE
  rcases h with hs | ⟨he, hi⟩
  · exact Or.inl hs
  · exact Or.inr ⟨he, le_of_lt hi⟩

theorem not_rankBefore_imp (q : List ℚ) (a b : ℕ × SlotData)
    (h : ¬ rankBefore q a b) : rankLE q b a := by
  unfold rankBefore at h
  unfold rankLE
  push_neg at h
  obtain ⟨h1, h2⟩ := h
  rcases lt_or_eq_of_le h1 with hlt | heq
  · exact Or.inl hlt
  · exact Or.inr ⟨heq.symm, h2 heq⟩

theorem rankLE_trans (q : List ℚ) (a b c : ℕ × SlotData)
    (h1 : rankLE q a b) (h2 : rankLE q b c) : rankLE q a c := by
  unfold rankLE at h1 h2 ⊢
  rcases h1 with hs1 | ⟨he1, hi1⟩ <;> rcases h2 with hs2 | ⟨he2, hi2⟩
  · exact Or.inl (lt_trans hs2 hs1)
  · exact Or.inl (he2 ▸ hs1)
  · exact Or.inl (by rw [he1]; exact hs2)
  · exact Or.inr ⟨he1.trans he2, le_trans hi1 hi2⟩

theorem pickBest_eq_none (q : List ℚ) (l : List (ℕ × SlotData))
    (h : pickBest q l = none) : l = [] := by
  cases l with
  | nil => rfl
  | cons x rest =>
    exfalso
    cases hr : pickBest q rest with
    | none => simp [pickBest, hr] at h
    | some p =>
      obtain ⟨b, others⟩ := p
      simp only [pickBest, hr] at h
      by_cases hrb : rankBefore q b x
      · rw [if_pos hrb] at h; simp at h
      · rw [if_neg hrb] at h; simp at h

theorem pickBest_perm (q : List ℚ) (l : List (ℕ × SlotData)) (b : ℕ × SlotData)
    (rest : List (ℕ × SlotData)) (h : pickBest q l = some (b, rest)) :
    l.Perm (b :: rest) := by
  induction l generalizing b rest with
  | nil => simp [pickBest] at h
  | cons x l0 ih =>
    cases hr : pickBest q l0 with
    | none =>
      have hnil : l0 = [] := pickBest_eq_none q l0 hr
      subst hnil
      simp only [pickBest] at h
      injection h with h
      have hb : x = b := congrArg Prod.fst h
      have hrest : ([] : List (ℕ × SlotData)) = rest := congrArg Prod.snd h
      subst hb; subst hrest
      exact List.Perm.refl _
    | some p =>
      obtain ⟨b0, others⟩ := p
      simp only [pickBest, hr] at h
      by_cases hrb : rankBefore q b0 x
      · rw [if_pos hrb] at h
        injection h with h
        have hb : b0 = b := congrArg Prod.fst h
        have hrest : x :: others = rest := congrArg Prod.snd h
        subst hb; subst hrest
        have hperm := ih b0 others hr
        exact (hperm.cons x).trans (List.Perm.swap b0 x others)
      · rw [if_neg hrb] at h
        injection h with h
        have hb : x = b := congrArg Prod.fst h
        have hrest : l0 = rest := congrArg Prod.snd h
        subst hb; subst hrest
        exact List.Perm.refl _

theorem pickBest_best (q : List ℚ) (l : List (ℕ × SlotData)) (b : ℕ × SlotData)
    (rest : List (ℕ × SlotData)) (h : pickBest q l = some (b, rest)) :
    ∀ x ∈ rest, rankLE q b x := by
  induction l generalizing b rest with
  | nil => simp [pickBest] at h
  | cons x0 l0 ih =>
    cases hr : pickBest q l0 with
    | none =>
      have hnil : l0 = [] := pickBest_eq_none q l0 hr
      subst hnil
      simp only [pickBest] at h
      injection h with h
      have hrest : ([] : List (ℕ × SlotData)) = rest := congrArg Prod.snd h
      subst hrest
      intro x hx
      simp at hx
    | some p =>
      obtain ⟨b0, others⟩ := p
      simp only [pickBest, hr] at h
      by_cases hrb : rankBefore q b0 x0
      · rw [if_pos hrb] at h
        injection h with h
        have hb : b0 = b := congrArg Prod.fst h
        have hrest : x0 :: others = rest := congrArg Prod.snd h
        subst hb; subst hrest
        intro x hx
        rcases List.mem_cons.mp hx with rfl | hmem
        · exact rankBefore_imp_rankLE q _ _ hrb
        · exact ih b0 others hr x hmem
      · rw [if_neg hrb] at h
        injection h with h
        have hb : x0 = b := congrArg Prod.fst h
        have hrest : l0 = rest := congrArg Prod.snd h
        subst hb; subst hrest
        intro x hx
        have hperm := pickBest_perm q l0 b0 others hr
        have hxb : rankLE q x0 b0 := not_rankBefore_imp q b0 x0 hrb
        rcases List.mem_cons.mp (hperm.mem_iff.mp hx) with rfl | hmem
        · exact hxb
        · exact rankLE_trans q x0 b0 x hxb (ih b0 others hr x hmem)

theorem topK_mem (q : List ℚ) (k : ℕ) :
    ∀ (l : List (ℕ × SlotData)) (x : ℕ × SlotData), x ∈ topK q k l → x ∈ l := by
  induction k with
  | zero => intro l x hx; simp [topK] at hx
  | succ k ih =>
    intro l x hx
    cases hpb : pickBest q l with
    | none => simp [topK, hpb] at hx
    | some p =>
      obtain ⟨b, rest⟩ := p
      simp only [topK, hpb] at hx
      have hperm := pickBest_perm q l b rest hpb
      rcases List.mem_cons.mp hx with rfl | hmem
      · exact hperm.mem_iff.mpr (List.mem_cons_self _ _)
      · exact hperm.mem_iff.mpr (List.mem_cons_of_mem _ (ih rest x hmem))

theorem topK_length (q : List ℚ) (k : ℕ) :
    ∀ l : List (ℕ × SlotData), (topK q k l).length = min k l.length := by
  induction k with
  | zero => intro l; simp [topK]
  | succ k ih =>
    intro l
    cases hpb : pickBest q l with
    | none =>
      have hnil : l = [] := pickBest_eq_none q l hpb
      subst hnil
      simp [topK, hpb]
    | some p =>
      obtain ⟨b, rest⟩ := p
      have hperm := pickBest_perm q l b rest hpb
      have hlen : l.length = rest.length + 1 := by
        rw [hperm.length_eq]
        rfl
      simp only [topK, hpb, List.length_cons, ih rest, hlen]
      omega

theorem topK_pairwise (q : List ℚ) (k : ℕ) :
    ∀ l : List (ℕ × SlotData), List.Pairwise (rankLE q) (topK q k l) := by
  induction k with
  | zero => intro l; simp [topK]
  | succ k ih =>
    intro l
    cases hpb : pickBest q l with
    | none => simp [topK, hpb]
    | some p =>
      obtain ⟨b, rest⟩ := p
      simp only [topK, hpb]
      refine List.pairwise_cons.mpr ⟨?_, ih rest⟩
      intro y hy
      exact pickBest_best q l b rest hpb y (topK_mem q k rest y hy)

theorem topK_complete (q : List ℚ) (k : ℕ) :
    ∀ (l : List (ℕ × SlotData)) (x : ℕ × SlotData), x ∈ l →
      x ∈ topK q k l ∨ ∀ y ∈ topK q k l, rankLE q y x := by
  induction k with
  | zero =>
    intro l x hx
    right
    intro y hy
    simp [topK] at hy
  | succ k ih =>
    intro l x hx
    cases hpb : pickBest q l with
    | none =>
      have hnil : l = [] := pickBest_eq_none q l hpb
      subst hnil
      simp at hx
    | some p =>
      obtain ⟨b, rest⟩ := p
      simp only [topK, hpb]
      have hperm := pickBest_perm q l b rest hpb
      rcases List.mem_cons.mp (hperm.mem_iff.mp hx) with rfl | hmem
      · left
        exact List.mem_cons_self _ _
      · rcases ih rest x hmem with hin | hall
        · left
          exact List.mem_cons_of_mem _ hin
        · right
          intro y hy
          rcases List.mem_cons.mp hy with rfl | hymem
          · exact pickBest_best q l y rest hpb x hmem
          · exact hall y hymem

theorem occFrom_mem (slots : List (Option SlotData)) :
    ∀ (base i : ℕ) (s : SlotData),
      (i, s) ∈ occFrom base slots ↔ ∃ j, i = base + j ∧ slots.get? j = some (some s) := by
  induction slots with
  | nil =>
    intro base i s
    simp [occFrom]
  | cons o rest ih =>
    intro base i s
    cases o with
    | none =>
      simp only [occFrom]
      rw [ih (base + 1) i s]
      constructor
      · rintro ⟨j, rfl, hj⟩
        exact ⟨j + 1, by omega, by simpa [List.get?] using hj⟩
      · rintro ⟨j, rfl, hj⟩
        cases j with
        | zero => simp [List.get?] at hj
        | succ n =>
          refine ⟨n, by omega, ?_⟩
          simpa [List.get?] using hj
    | some t =>
      simp only [occFrom, List.mem_cons]
      constructor
      · rintro (heq | hmem)
        · have hi : i = base := congrArg Prod.fst heq
          have hs : s = t := congrArg Prod.snd heq
          subst hi; subst hs
          exact ⟨0, by omega, by simp [List.get?]⟩
        · rw [ih (base + 1) i s] at hmem
          obtain ⟨j, rfl, hj⟩ := hmem
          exact ⟨j + 1, by omega, by simpa [List.get?] using hj⟩
      · rintro ⟨j, rfl, hj⟩
        cases j with
        | zero =>
          simp only [List.get?] at hj
          injection hj with hj
          injection hj with hj
          subst hj
          left
          simp
        | succ n =>
          right
          rw [ih (base + 1) (base + (n + 1)) s]
          refine ⟨n, by omega, ?_⟩
          simpa [List.get?] using hj

theorem occ_mem_get (slots : List (Option SlotData)) (i : ℕ) (s : SlotData) :
    (i, s) ∈ occFrom 0 slots ↔ slots.get? i = some (some s) := by
  rw [occFrom_mem slots 0 i s]
  constructor
  · rintro ⟨j, rfl, hj⟩
    simpa using hj
  · intro h
    exact ⟨i, by omega, h⟩

theorem occFrom_length (slots : List (Option SlotData)) :
    ∀ base : ℕ, (occFrom base slots).length = slots.countP Option.isSome := by
  induction slots with
  | nil => intro base; rfl
  | cons o rest ih =>
    intro base
    cases o with
    | none => simp [occFrom, List.countP_cons, ih (base + 1)]
    | some t => simp [occFrom, List.countP_cons, ih (base + 1)]

theorem bumpFrom_get? (idxs : List ℕ) (slots : List (Option SlotData)) :
    ∀ (base j : ℕ),
      (bumpFrom base idxs slots).get? j =
        (slots.get? j).map fun o =>
          if base + j ∈ idxs then o.map (fun s => { s with usage := s.usage + 1 }) else o := by
  induction slots with
  | nil => intro base j; simp [bumpFrom]
  | cons o rest ih =>
    intro base j
    cases j with
    | zero =>
      simp only [bumpFrom, List.get?, Option.map_some', Nat.add_zero]
    | succ n =>
      simp only [bumpFrom, List.get?]
      rw [ih (base + 1) n]
      have harith : base + 1 + n = base + (n + 1) := by omega
      rw [harith]

theorem bumpFrom_get?_mem (idxs : List ℕ) (slots : List (Option SlotData)) (j : ℕ)
    (h : j ∈ idxs) :
    (bumpFrom 0 idxs slots).get? j =
      (slots.get? j).map fun o => o.map fun s => { s with usage := s.usage + 1 } := by
  rw [bumpFrom_get? idxs slots 0 j]
  have h0 : 0 + j ∈ idxs := by simpa using h
  cases slots.get? j with
  | none => rfl
  | some o =>
    simp only [Option.map_some']
    rw [if_pos h0]

theorem bumpFrom_get?_not_mem (idxs : List ℕ) (slots : List (Option SlotData)) (j : ℕ)
    (h : j ∉ idxs) :
    (bumpFrom 0 idxs slots).get? j = slots.get? j := by
  rw [bumpFrom_get? idxs slots 0 j]
  have h0 : 0 + j ∉ idxs := by simpa using h
  cases slots.get? j with
  | none => rfl
  | some o =>
    simp only [Option.map_some']
    rw [if_neg h0]

theorem countP_bumpFrom (idxs : List ℕ) (slots : List (Option SlotData)) :
    ∀ base : ℕ,
      (bumpFrom base idxs slots).countP Option.isSome = slots.countP Option.isSome := by
  induction slots with
  | nil => intro base; rfl
  | cons o rest ih =>
    intro base
    have hhead : (if base ∈ idxs then o.map (fun s => { s with usage := s.usage + 1 })
        else o).isSome = o.isSome := by
      by_cases hb : base ∈ idxs
      · rw [if_pos hb]
        cases o <;> rfl
      · rw [if_neg hb]
    simp [bumpFrom, List.countP_cons, ih (base + 1), hhead]

/-- C4: a valid `Read(query_vector, top_k)` returns the `top_k` occupied
slots ordered by similarity score descending with ties broken by lowest
slot index (the returned list is rank-sorted, drawn from the occupied
slots, of length `min top_k occupiedCount`, and every occupied slot not
returned ranks no better than every returned one); each returned slot's
usage counter is incremented by exactly 1, every other slot is untouched,
and the occupied count is unchanged — `Read` never frees or evicts. -/
theorem read_returns_topk (m : MemoryStore) (q : List ℚ) (k : ℕ)
    (hq : q.length = m.dim) :
    read m q k = .ok (topK q k (occFrom 0 m.slots),
      { m with slots := bumpFrom 0 ((topK q k (occFrom 0 m.slots)).map Prod.fst) m.slots }) ∧
    (topK q k (occFrom 0 m.slots)).length = min k m.occupiedCount ∧
    List.Pairwise (rankLE q) (topK q k (occFrom 0 m.slots)) ∧
    (∀ p ∈ topK q k (occFrom 0 m.slots), m.slots.get? p.1 = some (some p.2)) ∧
    (∀ i s, m.slots.get? i = some (some s) →
      (i, s) ∈ topK q k (occFrom 0 m.slots) ∨
        ∀ p ∈ topK q k (occFrom 0 m.slots), rankLE q p (i, s)) ∧
    (∀ p ∈ topK q k (occFrom 0 m.slots),
      (bumpFrom 0 ((topK q k (occFrom 0 m.slots)).map Prod.fst) m.slots).get? p.1 =
        some (some { p.2 with usage := p.2.usage + 1 })) ∧
    (∀ i, i ∉ (topK q k (occFrom 0 m.slots)).map Prod.fst →
      (bumpFrom 0 ((topK q k (occFrom 0 m.slots)).map Prod.fst) m.slots).get? i =
        m.slots.get? i) ∧
    ({ m with
        slots := bumpFrom 0 ((topK q k (occFrom 0 m.slots)).map Prod.fst) m.slots
      } : MemoryStore).occupiedCount = m.occupiedCount := by
  have hread : read m q k = .ok (topK q k (occFrom 0 m.slots),
      { m with slots := bumpFrom 0 ((topK q k (occFrom 0 m.slots)).map Prod.fst) m.slots }) := by
    unfold read
    rw [if_neg (by simp [hq])]
  refine ⟨hread, ?_, ?_, ?_, ?_, ?_, ?_, ?_⟩
  · rw [topK_length]
    unfold MemoryStore.occupiedCount
    rw [occFrom_length m.slots 0]
  · exact topK_pairwise q k _
  · intro p hp
    exact (occ_mem_get m.slots p.1 p.2).mp (topK_mem q k _ p hp)
  · intro i s hget
    exact topK_complete q k _ (i, s) ((occ_mem_get m.slots i s).mpr hget)
  · intro p hp
    have hidx : p.1 ∈ (topK q k (occFrom 0 m.slots)).map Prod.fst :=
      List.mem_map_of_mem Prod.fst hp
    have hget : m.slots.get? p.1 = some (some p.2) :=
      (occ_mem_get m.slots p.1 p.2).mp (topK_mem q k _ p hp)
    rw [bumpFrom_get?_mem _ _ _ hidx, hget]
    rfl
  · intro i hi
    exact bumpFrom_get?_not_mem _ _ _ hi
  · unfold MemoryStore.occupiedCount
    exact countP_bumpFrom _ m.slots 0

/-- Witness for C4 on a one-slot store: the read succeeds and produces
the top-1 list with the usage bump applied. -/
theorem read_returns_topk_witness :
    ([1, 0] : List ℚ).length = (⟨2, [some ⟨"a", [1, 0], 1, 0⟩], 1⟩ : MemoryStore).dim ∧
    read ⟨2, [some ⟨"a", [1, 0], 1, 0⟩], 1⟩ [1, 0] 1 =
      .ok (topK [1, 0] 1 (occFrom 0 [some ⟨"a", [1, 0], 1, 0⟩]),
        { dim := 2
          slots := bumpFrom 0
            ((topK [1, 0] 1 (occFrom 0 [some ⟨"a", [1, 0], 1, 0⟩])).map Prod.fst)
            [some ⟨"a", [1, 0], 1, 0⟩]
          clock := 1 }) :=
  ⟨rfl, (read_returns_topk ⟨2, [some ⟨"a", [1, 0], 1, 0⟩], 1⟩ [1, 0] 1 rfl).1⟩

/-- C5: for every graph — cyclic or not — and every `max_hops` bound `H`,
the per-query state machine reaches `DONE` within `H + 1` steps, and at
every step the log of expanded nodes is duplicate-free: no node is
expanded twice in one query. -/
theorem query_terminates_and_visits_once (g : Graph) (seed : String) (maxHops : ℕ) :
    ((qStep g maxHops)^[maxHops + 1] (initQState seed)).phase = .done ∧
    ∀ n : ℕ, ((qStep g maxHops)^[n] (initQState seed)).expandedLog.Nodup := by
  constructor
  · apply qStep_reaches_done
    simp [initQState]
  · intro n
    exact (qStep_iterate_log_nodup g maxHops seed n).1

end GraphFusion
